import Mathlib

/-!
Shallow embedding of `src/dir_entry.rs` (the `DirEntry` core of a file-search
tool) and proofs about it.

Modelling conventions:
* Machine bytes are `Nat` values in `0..255`; a Rust `&[u8]` is a `List Nat`.
* A Rust `String` is its (valid) UTF-8 byte sequence, i.e. also a `List Nat`;
  `String::from_utf8` is modelled by `from_utf8`, which checks real UTF-8
  validity and returns the bytes unchanged.
* A `Path`/`OsStr` is modelled by `FsPath`: an absolute-flag plus the list of
  normal components (each a byte sequence), matching the component view used by
  `std::path::Path` for comparison and `file_name`.
* The external `regex::bytes::Regex` collaborator is modelled by a small
  pattern AST plus a backtracking matcher whose `captures_iter` follows the
  crate's documented semantics: repeated leftmost-first search, each new search
  starting at the previous match's end (one past it for an empty match).
* Rust panics (`unreachable!`, `.expect`, `.unwrap`) are modelled by the
  `MatchOut.panic` constructor, kept distinct from ordinary return values.
* `HashMap<usize, V>` values built by `is_match` are modelled as association
  lists whose keys are pairwise distinct; only their key-value content is
  meaningful.
-/

set_option linter.unusedVariables false

namespace FdSpec

abbrev Byte := Nat
abbrev ByteStr := List Byte

/-- Positional lookup in a list, the model of slice indexing. -/
def nth {α : Type} : List α → Nat → Option α
  | [], _ => none
  | a :: _, 0 => some a
  | _ :: l, n + 1 => nth l n

/-- Model of Rust's `.iter().enumerate()` starting at index `k`. -/
def enumFrom {α : Type} (k : Nat) : List α → List (Nat × α)
  | [] => []
  | a :: l => (k, a) :: enumFrom (k + 1) l

/-- Three-way comparison on `Nat`, the model of byte comparison. -/
def natCmp (a b : Nat) : Ordering :=
  if a < b then .lt else if b < a then .gt else .eq

/-- Lexicographic three-way comparison of lists from an element comparison. -/
def listCmpWith {α : Type} (f : α → α → Ordering) : List α → List α → Ordering
  | [], [] => .eq
  | [], _ :: _ => .lt
  | _ :: _, [] => .gt
  | a :: l1, b :: l2 =>
    match f a b with
    | .eq => listCmpWith f l1 l2
    | o => o

/-- Lexicographic byte-string comparison. -/
def byteStrCmp : ByteStr → ByteStr → Ordering := listCmpWith natCmp

/-- Is `b` a UTF-8 continuation byte (`10xxxxxx`)? -/
def isCont (b : Byte) : Bool := 0x80 ≤ b && b ≤ 0xBF

/-- Real UTF-8 validity of a byte sequence (including the overlong-encoding and
surrogate restrictions), the validity check performed by `String::from_utf8`. -/
def validUtf8 : ByteStr → Bool
  | [] => true
  | b :: rest =>
    if b ≤ 0x7F then validUtf8 rest
    else if 0xC2 ≤ b && b ≤ 0xDF then
      match rest with
      | c :: rest2 => isCont c && validUtf8 rest2
      | [] => false
    else if b = 0xE0 then
      match rest with
      | c :: d :: rest2 => (0xA0 ≤ c && c ≤ 0xBF) && isCont d && validUtf8 rest2
      | _ => false
    else if (0xE1 ≤ b && b ≤ 0xEC) || b = 0xEE || b = 0xEF then
      match rest with
      | c :: d :: rest2 => isCont c && isCont d && validUtf8 rest2
      | _ => false
    else if b = 0xED then
      match rest with
      | c :: d :: rest2 => (0x80 ≤ c && c ≤ 0x9F) && isCont d && validUtf8 rest2
      | _ => false
    else if b = 0xF0 then
      match rest with
      | c :: d :: e :: rest2 => (0x90 ≤ c && c ≤ 0xBF) && isCont d && isCont e && validUtf8 rest2
      | _ => false
    else if 0xF1 ≤ b && b ≤ 0xF3 then
      match rest with
      | c :: d :: e :: rest2 => isCont c && isCont d && isCont e && validUtf8 rest2
      | _ => false
    else if b = 0xF4 then
      match rest with
      | c :: d :: e :: rest2 => (0x80 ≤ c && c ≤ 0x8F) && isCont d && isCont e && validUtf8 rest2
      | _ => false
    else false

/-- Model of `String::from_utf8`: succeeds exactly on valid UTF-8, and a Rust
`String` is modelled by its byte sequence, so the bytes are returned as-is. -/
def from_utf8 (bs : ByteStr) : Option ByteStr :=
  if validUtf8 bs then some bs else none

/-- The byte sub-slice of `s` described by a half-open span, the model of
`regex::bytes::Match::as_bytes`. -/
def slice (s : ByteStr) (sp : Nat × Nat) : ByteStr :=
  (s.drop sp.1).take (sp.2 - sp.1)

/-! ## The compiled pattern collaborator

`regex::bytes::Regex` is external to the repository (the `PatternCompiler`
collaborator of the spec).  It is modelled by an explicit pattern AST and a
backtracking matcher with standard leftmost-first preference order: in an
alternation the left branch is preferred, a star is greedy, and the overall
match at a position is the matcher's first result there. -/

inductive Pattern : Type where
  | emp : Pattern
  | byte (b : Byte) : Pattern
  | digit : Pattern
  | anyByte : Pattern
  | cat (p q : Pattern) : Pattern
  | alt (p q : Pattern) : Pattern
  | star (p : Pattern) : Pattern
  | group (i : Nat) (p : Pattern) : Pattern

/-- Capture-group bindings recorded while matching: `(group index, start, end)`
triples, later bindings of the same group superseding earlier ones. -/
abbrev Binds := List (Nat × Nat × Nat)

def isDigitByte (b : Byte) : Bool := 48 ≤ b && b ≤ 57

/-- Backtracking matcher: all ways to match `p` in `s` starting at `pos`, as
`(end position, group bindings)` pairs in preference order.  The fuel argument
only serves termination; every concrete use supplies enough of it. -/
def run (s : ByteStr) : Nat → Pattern → Nat → List (Nat × Binds)
  | 0, _, _ => []
  | fuel + 1, p, pos =>
    match p with
    | .emp => [(pos, ([] : Binds))]
    | .byte b =>
      match nth s pos with
      | some c => if c = b then [(pos + 1, ([] : Binds))] else []
      | none => []
    | .digit =>
      match nth s pos with
      | some c => if isDigitByte c then [(pos + 1, ([] : Binds))] else []
      | none => []
    | .anyByte =>
      match nth s pos with
      | some c => if c = 10 then [] else [(pos + 1, ([] : Binds))]
      | none => []
    | .cat p1 p2 =>
      (run s fuel p1 pos).flatMap (fun r =>
        (run s fuel p2 r.1).map (fun r2 => (r2.1, r.2 ++ r2.2)))
    | .alt p1 p2 => run s fuel p1 pos ++ run s fuel p2 pos
    | .star p1 =>
      ((run s fuel p1 pos).flatMap (fun r =>
        if pos < r.1 then
          (run s fuel (.star p1) r.1).map (fun r2 => (r2.1, r.2 ++ r2.2))
        else [])) ++ [(pos, ([] : Binds))]
    | .group i p1 =>
      (run s fuel p1 pos).map (fun r => (r.1, r.2 ++ [(i, pos, r.1)]))

/-- Structural size of a pattern, used to pick a sufficient fuel. -/
def Pattern.size : Pattern → Nat
  | .cat p q => p.size + q.size + 1
  | .alt p q => p.size + q.size + 1
  | .star p => p.size + 1
  | .group _ p => p.size + 1
  | _ => 1

/-- Fuel that is ample for matching `p` anywhere in `s`. -/
def bigFuel (p : Pattern) (s : ByteStr) : Nat := (p.size + 1) * (s.length + 2)

/-- The engine's preferred match of `p` at exactly position `pos` (end position
and group bindings), or `none` if `p` does not match there. -/
def runHead (p : Pattern) (s : ByteStr) (pos : Nat) : Option (Nat × Binds) :=
  (run s (bigFuel p s) p pos).head?

/-- Scan at most `count` positions starting at `pos` for the first position
where `p` matches; returns `(start, end, bindings)` of the leftmost match. -/
def findFromAux (p : Pattern) (s : ByteStr) : Nat → Nat → Option (Nat × Nat × Binds)
  | 0, _ => none
  | count + 1, pos =>
    match runHead p s pos with
    | some r => some (pos, r.1, r.2)
    | none => findFromAux p s count (pos + 1)

/-- Leftmost match of `p` in `s` at or after `pos`. -/
def findFrom (p : Pattern) (s : ByteStr) (pos : Nat) : Option (Nat × Nat × Binds) :=
  findFromAux p s (s.length + 1 - pos) pos

/-- Where the next leftmost-first search resumes after a match over
`[st, en)`: at `en`, or one past it when the match was empty (the documented
behaviour of `regex`'s iterators). -/
def advanceFrom (st en : Nat) : Nat := if en = st then en + 1 else en

/-- All `(start, end, bindings)` triples produced by repeated leftmost-first
search, the model of the iteration underlying `captures_iter`. -/
def capturesIterAux (p : Pattern) (s : ByteStr) : Nat → Nat → List (Nat × Nat × Binds)
  | 0, _ => []
  | fuel + 1, pos =>
    match findFrom p s pos with
    | none => []
    | some (st, en, binds) =>
      (st, en, binds) :: capturesIterAux p s fuel (advanceFrom st en)

/-- The spans (with bindings) of all non-overlapping leftmost-first matches of
`p` in `s`; since each step advances the position, `s.length + 1` rounds
enumerate every match. -/
def capturesSpans (p : Pattern) (s : ByteStr) : List (Nat × Nat × Binds) :=
  capturesIterAux p s (s.length + 1) 0

/-- The span bound to group `i`, taking the latest binding (a group inside a
repetition reports its final iteration). -/
def lastBind (binds : Binds) (i : Nat) : Option (Nat × Nat) :=
  ((binds.filter (fun b => b.1 = i)).getLast?).map (fun b => b.2)

/-- The highest capture-group index appearing in a pattern. -/
def Pattern.maxGroup : Pattern → Nat
  | .cat p q => max p.maxGroup q.maxGroup
  | .alt p q => max p.maxGroup q.maxGroup
  | .star p => p.maxGroup
  | .group i p => max i p.maxGroup
  | _ => 0

/-- The `Captures` value of one match occurrence: for each group index
`0..maxG` the optional span it captured, group `0` being the whole match.
This is the model of `regex::bytes::Captures` viewed through `iter()`. -/
def capsList (maxG st en : Nat) (binds : Binds) : List (Option (Nat × Nat)) :=
  (List.range (maxG + 1)).map (fun i => if i = 0 then some (st, en) else lastBind binds i)

/-- Model of `Regex::captures_iter`: the `Captures` of every non-overlapping
leftmost-first match occurrence, in match order. -/
def capturesIter (p : Pattern) (s : ByteStr) : List (List (Option (Nat × Nat))) :=
  (capturesSpans p s).map (fun r => capsList p.maxGroup r.1 r.2.1 r.2.2)

/-! ## Paths

A path is its absolute-flag plus its normal components, the view
`std::path::Path` exposes for `file_name`, equality and ordering.  Components
are byte strings; a trailing `..` component (or an empty component list, i.e.
a bare root) has no final path component, exactly the `file_name() == None`
cases the source's `unreachable!` branch is about. -/

structure FsPath where
  absolute : Bool
  comps : List ByteStr
deriving DecidableEq

/-- The bytes of the parent-directory pseudo-component `..`. -/
def dotdot : ByteStr := [46, 46]

/-- Model of `Path::file_name`: the last component, or `none` for a bare root
or a path ending in `..`. -/
def FsPath.file_name (p : FsPath) : Option ByteStr :=
  match p.comps.getLast? with
  | none => none
  | some c => if c = dotdot then none else some c

/-- The path separator byte `/`. -/
def sepByte : Byte := 47

/-- Join components with `/` separators. -/
def joinComps : List ByteStr → ByteStr
  | [] => []
  | [c] => c
  | c :: c2 :: rest => c ++ sepByte :: joinComps (c2 :: rest)

/-- The byte rendering of a path (the Unix `OsStr` view of it). -/
def pathBytes (p : FsPath) : ByteStr :=
  (if p.absolute then [sepByte] else []) ++ joinComps p.comps

/-- Model of `Path`'s three-way comparison: component-wise lexicographic, a
root (absolute) prefix ordering before any normal component. -/
def pathCmp (p q : FsPath) : Ordering :=
  match p.absolute, q.absolute with
  | true, false => .lt
  | false, true => .gt
  | _, _ => listCmpWith byteStrCmp p.comps q.comps

/-! ## The entry data model -/

inductive FileTypeM : Type where
  | file : FileTypeM
  | dir : FileTypeM
  | symlink : FileTypeM
deriving DecidableEq

/-- Model of `fs::Metadata`, reduced to the facet the source reads from it. -/
structure MetadataM where
  file_type : FileTypeM
deriving DecidableEq

inductive IoError : Type where
  | notFound : IoError
  | permissionDenied : IoError
deriving DecidableEq

/-- Outcome of a fallible filesystem lookup (`Result` in the source). -/
inductive IoResult (α : Type) : Type where
  | ok (a : α) : IoResult α
  | err (e : IoError) : IoResult α
deriving DecidableEq

/-- Model of `Result::ok`. -/
def IoResult.toOption {α : Type} : IoResult α → Option α
  | .ok a => some a
  | .err _ => none

/-- Model of the walker-produced `ignore::DirEntry` handle (external
collaborator): its path, walker-supplied optional file type, the outcome the
walker's own `metadata()` would report, and the traversal depth. -/
structure IgnoreDirEntry where
  path : FsPath
  file_type : Option FileTypeM
  metadata_result : IoResult MetadataM
  depth : Nat
deriving DecidableEq

/-- The ambient filesystem, supplying the non-following `symlink_metadata`
lookup used for broken-symlink paths. -/
structure Filesystem where
  symlink_metadata : FsPath → IoResult MetadataM

inductive DirEntryInner : Type where
  | Normal (e : IgnoreDirEntry) : DirEntryInner
  | BrokenSymlink (path : FsPath) : DirEntryInner
deriving DecidableEq

/-- The entry itself: provenance, the `OnceCell<Option<Metadata>>` cache
(`none` = never evaluated, `some c` = cached outcome `c`), and the stored
match data `HashMap<usize, HashMap<usize, String>>` as an association list. -/
structure DirEntry where
  inner : DirEntryInner
  metadata : Option (Option MetadataM)
  match_list : List (Nat × List (Nat × ByteStr))
deriving DecidableEq

/-- Constructor `DirEntry::normal`. -/
def DirEntry.normal (e : IgnoreDirEntry) : DirEntry :=
  { inner := .Normal e, metadata := none, match_list := [] }

/-- Constructor `DirEntry::broken_symlink`. -/
def DirEntry.broken_symlink (p : FsPath) : DirEntry :=
  { inner := .BrokenSymlink p, metadata := none, match_list := [] }

/-- `DirEntry::path`. -/
def DirEntry.path (d : DirEntry) : FsPath :=
  match d.inner with
  | .Normal e => e.path
  | .BrokenSymlink p => p

/-- `DirEntry::matches`. -/
def DirEntry.matches (d : DirEntry) : List (Nat × List (Nat × ByteStr)) :=
  d.match_list

/-- `DirEntry::into_path`. -/
def DirEntry.into_path (d : DirEntry) : FsPath :=
  match d.inner with
  | .Normal e => e.path
  | .BrokenSymlink p => p

/-- `DirEntry::depth`. -/
def DirEntry.depth (d : DirEntry) : Option Nat :=
  match d.inner with
  | .Normal e => some e.depth
  | .BrokenSymlink _ => none

/-- The underlying lookup the `OnceCell` initialiser performs: the walker's
own metadata retrieval for `Normal`, the non-following `symlink_metadata` for
`BrokenSymlink`; either way `.ok()` absorbs the error into `Option`. -/
def metadataLookup (fs : Filesystem) (d : DirEntry) : Option MetadataM :=
  match d.inner with
  | .Normal e => e.metadata_result.toOption
  | .BrokenSymlink p => (fs.symlink_metadata p).toOption

/-- Observable outcome of one accessor call on an entry: the returned value,
the entry afterwards (the cache may have been filled), and how many underlying
filesystem lookups the call performed. -/
structure CallResult (α : Type) where
  result : α
  entry : DirEntry
  lookups : Nat
deriving DecidableEq

/-- `DirEntry::metadata`: `get_or_init` on the cache cell. -/
def DirEntry.metadata_call (d : DirEntry) (fs : Filesystem) : CallResult (Option MetadataM) :=
  match d.metadata with
  | some cached => { result := cached, entry := d, lookups := 0 }
  | none =>
    let r := metadataLookup fs d
    { result := r, entry := { d with metadata := some r }, lookups := 1 }

/-- `DirEntry::file_type`: walker-supplied type for `Normal`, the cached
metadata's type for `BrokenSymlink`. -/
def DirEntry.file_type_call (d : DirEntry) (fs : Filesystem) : CallResult (Option FileTypeM) :=
  match d.inner with
  | .Normal e => { result := e.file_type, entry := d, lookups := 0 }
  | .BrokenSymlink _ =>
    let c := d.metadata_call fs
    { result := c.result.map MetadataM.file_type, entry := c.entry, lookups := c.lookups }

/-! ## Search-string derivation and matching -/

/-- The panic a call can end in, modelling `unreachable!` / `.expect` /
`.unwrap`: a process abort, not a value returned to the caller. -/
inductive PanicKind : Type where
  | noFileName : PanicKind
  | absolutizeFailure : PanicKind
  | decodeFailure : PanicKind
deriving DecidableEq

/-- Result of an operation that can panic: a normal value, or a panic. -/
inductive MatchOut (α : Type) : Type where
  | ok (a : α) : MatchOut α
  | panic (k : PanicKind) : MatchOut α
deriving DecidableEq

/-- Modelled from the spec: `crate::filesystem::path_absolute_form` lives in a
repository file that is not part of the given sources.  Per the spec
(PathCodec), it returns the absolute form of a path and "must succeed for any
path this core holds"; an already absolute path is returned unchanged,
otherwise the path is resolved against the current working directory. -/
def path_absolute_form (cwd : FsPath) (p : FsPath) : Option FsPath :=
  some (if p.absolute then p else { absolute := cwd.absolute, comps := cwd.comps ++ p.comps })

/-- Modelled from the spec: `crate::filesystem::osstr_to_bytes` lives in a
repository file that is not part of the given sources.  Per the spec
(PathCodec), it is the byte-sequence view of a path string and always
succeeds; search strings are already modelled as their bytes. -/
def osstr_to_bytes (s : ByteStr) : ByteStr := s

/-- `DirEntry::get_search_str`: the absolute path in full-path mode (its
`.expect` modelled as a panic), otherwise the filename, whose absence is the
`unreachable!` contract-violation panic. -/
def DirEntry.get_search_str (d : DirEntry) (cwd : FsPath) (search_full_path : Bool) :
    MatchOut ByteStr :=
  let entry_path := d.path
  if search_full_path then
    match path_absolute_form cwd entry_path with
    | some abs => .ok (pathBytes abs)
    | none => .panic .absolutizeFailure
  else
    match entry_path.file_name with
    | some filename => .ok filename
    | none => .panic .noFileName

/-- The inner loop of `is_match` over one occurrence's enumerated groups:
participating groups are decoded (`String::from_utf8(..).unwrap()`, whose
failure is a panic, modelled as `none`) and inserted in enumeration order;
absent groups are skipped. -/
def decodeGroupsGo (s : ByteStr) : List (Nat × Option (Nat × Nat)) → Option (List (Nat × ByteStr))
  | [] => some []
  | (_, none) :: rest => decodeGroupsGo s rest
  | (g, some sp) :: rest =>
    match from_utf8 (slice s sp) with
    | none => none
    | some t => (decodeGroupsGo s rest).map (fun m => (g, t) :: m)

/-- The outer loop of `is_match` over enumerated occurrences: each occurrence
contributes its decoded group map under its occurrence index. -/
def buildFoundGo (s : ByteStr) :
    List (Nat × List (Option (Nat × Nat))) → Option (List (Nat × List (Nat × ByteStr)))
  | [] => some []
  | (i, caps) :: rest =>
    match decodeGroupsGo s (enumFrom 0 caps) with
    | none => none
    | some m => (buildFoundGo s rest).map (fun f => (i, m) :: f)

/-- The `found` map `is_match` builds from `captures_iter` on `s`, or `none`
if some capture fails UTF-8 decoding (a panic in the source). -/
def buildFound (pat : Pattern) (s : ByteStr) : Option (List (Nat × List (Nat × ByteStr))) :=
  buildFoundGo s (enumFrom 0 (capturesIter pat s))

/-- `DirEntry::is_match`: derive the search string, run `captures_iter`,
store the decoded captures as the new match data, and report whether the map
is non-empty. -/
def DirEntry.is_match (d : DirEntry) (cwd : FsPath) (pattern : Pattern)
    (search_full_path : Bool) : MatchOut (DirEntry × Bool) :=
  match d.get_search_str cwd search_full_path with
  | .panic k => .panic k
  | .ok search_str =>
    let search_res := osstr_to_bytes search_str
    match buildFound pattern search_res with
    | none => .panic .decodeFailure
    | some found => .ok ({ d with match_list := found }, decide (0 < found.length))

/-- Model of the `PartialEq`/`Eq` impl: equality by path alone. -/
def DirEntry.beq (a b : DirEntry) : Bool := a.path = b.path

/-- Model of the `Ord` impl: three-way comparison by path alone. -/
def DirEntry.cmp (a b : DirEntry) : Ordering := pathCmp a.path b.path

/-! ## List utility lemmas -/

theorem nth_map {α β : Type} (f : α → β) :
    ∀ (l : List α) (i : Nat), nth (l.map f) i = (nth l i).map f := by
  intro l
  induction l with
  | nil => intro i; cases i <;> simp [nth]
  | cons a l ih =>
    intro i
    cases i with
    | zero => simp [nth]
    | succ n => simp [nth, ih]

theorem nth_mem {α : Type} : ∀ {l : List α} {i : Nat} {a : α}, nth l i = some a → a ∈ l := by
  intro l
  induction l with
  | nil => intro i a h; simp [nth] at h
  | cons b l ih =>
    intro i a h
    cases i with
    | zero =>
      simp only [nth, Option.some.injEq] at h
      subst h
      exact List.mem_cons_self b l
    | succ n => exact List.mem_cons_of_mem _ (ih h)

theorem head?_mem {α : Type} : ∀ {l : List α} {a : α}, l.head? = some a → a ∈ l := by
  intro l a h
  cases l with
  | nil => simp at h
  | cons b l =>
    simp only [List.head?_cons, Option.some.injEq] at h
    subst h
    exact List.mem_cons_self b l

theorem enumFrom_mem {α : Type} :
    ∀ (l : List α) (k g : Nat) (a : α),
      (g, a) ∈ enumFrom k l ↔ ∃ j, g = k + j ∧ nth l j = some a := by
  intro l
  induction l with
  | nil => intro k g a; simp [enumFrom, nth]
  | cons b l ih =>
    intro k g a
    simp only [enumFrom, List.mem_cons]
    constructor
    · rintro (h | h)
      · rw [Prod.mk.injEq] at h
        refine ⟨0, by omega, ?_⟩
        simp [nth, h.2.symm]
      · obtain ⟨j, hg, hn⟩ := (ih (k + 1) g a).mp h
        exact ⟨j + 1, by omega, by simpa [nth] using hn⟩
    · rintro ⟨j, rfl, hn⟩
      cases j with
      | zero =>
        simp only [nth, Option.some.injEq] at hn
        subst hn
        left
        simp
      | succ j =>
        right
        exact (ih (k + 1) (k + (j + 1)) a).mpr ⟨j, by omega, hn⟩

theorem enumFrom_map_fst {α : Type} :
    ∀ (l : List α) (k : Nat), (enumFrom k l).map Prod.fst = List.range' k l.length := by
  intro l
  induction l with
  | nil => intro k; simp [enumFrom]
  | cons a l ih =>
    intro k
    simp [enumFrom, List.range'_succ, ih]

theorem enumFrom_zero_map_fst {α : Type} (l : List α) :
    (enumFrom 0 l).map Prod.fst = List.range l.length := by
  rw [enumFrom_map_fst]
  exact (List.range_eq_range' _).symm

theorem enumFrom_fst_ge {α : Type} :
    ∀ (l : List α) (k x : Nat), x ∈ (enumFrom k l).map Prod.fst → k ≤ x := by
  intro l
  induction l with
  | nil => intro k x h; simp [enumFrom] at h
  | cons a l ih =>
    intro k x h
    simp only [enumFrom, List.map_cons, List.mem_cons] at h
    rcases h with rfl | h
    · exact Nat.le_refl _
    · have := ih (k + 1) x h
      omega

theorem enumFrom_pairwise_fst {α : Type} :
    ∀ (l : List α) (k : Nat), List.Pairwise (· < ·) ((enumFrom k l).map Prod.fst) := by
  intro l
  induction l with
  | nil => intro k; simp [enumFrom]
  | cons a l ih =>
    intro k
    simp only [enumFrom, List.map_cons, List.pairwise_cons]
    refine ⟨?_, ih (k + 1)⟩
    intro x hx
    have := enumFrom_fst_ge l (k + 1) x hx
    omega

/-! ## Matcher lemmas -/

theorem run_le (s : ByteStr) :
    ∀ (fuel : Nat) (p : Pattern) (pos : Nat) (r : Nat × Binds),
      r ∈ run s fuel p pos → pos ≤ r.1 := by
  intro fuel
  induction fuel with
  | zero => intro p pos r h; simp [run] at h
  | succ n ih =>
    intro p pos r h
    cases p with
    | emp =>
      simp only [run, List.mem_singleton] at h
      subst h
      exact Nat.le_refl _
    | byte b =>
      simp only [run] at h
      split at h
      · split at h
        · simp only [List.mem_singleton] at h
          subst h
          simp
        · simp at h
      · simp at h
    | digit =>
      simp only [run] at h
      split at h
      · split at h
        · simp only [List.mem_singleton] at h
          subst h
          simp
        · simp at h
      · simp at h
    | anyByte =>
      simp only [run] at h
      split at h
      · split at h
        · simp at h
        · simp only [List.mem_singleton] at h
          subst h
          simp
      · simp at h
    | cat p1 p2 =>
      simp only [run, List.mem_flatMap, List.mem_map] at h
      obtain ⟨r1, hr1, r2, hr2, rfl⟩ := h
      have h1 := ih p1 pos r1 hr1
      have h2 := ih p2 r1.1 r2 hr2
      simpa using Nat.le_trans h1 h2
    | alt p1 p2 =>
      simp only [run, List.mem_append] at h
      rcases h with h | h
      · exact ih p1 pos r h
      · exact ih p2 pos r h
    | star p1 =>
      simp only [run, List.mem_append] at h
      rcases h with h | h
      · simp only [List.mem_flatMap] at h
        obtain ⟨r1, hr1, h⟩ := h
        by_cases hlt : pos < r1.1
        · rw [if_pos hlt] at h
          simp only [List.mem_map] at h
          obtain ⟨r2, hr2, rfl⟩ := h
          have h2 := ih (.star p1) r1.1 r2 hr2
          show pos ≤ r2.1
          omega
        · rw [if_neg hlt] at h; simp at h
      · simp only [List.mem_singleton] at h
        subst h
        exact Nat.le_refl _
    | group i p1 =>
      simp only [run, List.mem_map] at h
      obtain ⟨r1, hr1, rfl⟩ := h
      simpa using ih p1 pos r1 hr1

theorem runHead_le {p : Pattern} {s : ByteStr} {pos : Nat} {r : Nat × Binds}
    (h : runHead p s pos = some r) : pos ≤ r.1 :=
  run_le s _ p pos r (head?_mem h)

theorem findFromAux_some (p : Pattern) (s : ByteStr) :
    ∀ (count pos st en : Nat) (b : Binds),
      findFromAux p s count pos = some (st, en, b) →
      pos ≤ st ∧ runHead p s st = some (en, b) ∧
        ∀ q, pos ≤ q → q < st → runHead p s q = none := by
  intro count
  induction count with
  | zero => intro pos st en b h; simp [findFromAux] at h
  | succ n ih =>
    intro pos st en b h
    simp only [findFromAux] at h
    cases hr : runHead p s pos with
    | some r =>
      rw [hr] at h
      simp only [Option.some.injEq, Prod.mk.injEq] at h
      obtain ⟨h1, h2, h3⟩ := h
      subst h1
      refine ⟨Nat.le_refl _, ?_, ?_⟩
      · rw [hr, ← h2, ← h3]
      · intro q hq1 hq2; omega
    | none =>
      rw [hr] at h
      obtain ⟨h1, h2, h3⟩ := ih (pos + 1) st en b h
      refine ⟨by omega, h2, ?_⟩
      intro q hq1 hq2
      rcases Nat.eq_or_lt_of_le hq1 with heq | hlt
      · rw [← heq]; exact hr
      · exact h3 q (by omega) hq2

theorem findFromAux_none (p : Pattern) (s : ByteStr) :
    ∀ (count pos : Nat), findFromAux p s count pos = none →
      ∀ q, pos ≤ q → q < pos + count → runHead p s q = none := by
  intro count
  induction count with
  | zero => intro pos h q h1 h2; omega
  | succ n ih =>
    intro pos h q h1 h2
    simp only [findFromAux] at h
    cases hr : runHead p s pos with
    | some r => rw [hr] at h; simp at h
    | none =>
      rw [hr] at h
      rcases Nat.eq_or_lt_of_le h1 with heq | hlt
      · rw [← heq]; exact hr
      · exact ih (pos + 1) h q (by omega) (by omega)

/-- The full content of leftmost-first, non-overlapping enumeration starting
at `pos`: every listed triple is a genuine match whose start is at or beyond
`pos` (and past the previous match), no position is skipped over a match, each
span is well-formed (`st ≤ en`), and after the last listed match no further
match exists anywhere in the string. -/
def LeftmostChain (p : Pattern) (s : ByteStr) : Nat → List (Nat × Nat × Binds) → Prop
  | pos, [] => ∀ q, pos ≤ q → q ≤ s.length → runHead p s q = none
  | pos, (st, en, b) :: rest =>
      pos ≤ st ∧ st ≤ en ∧ (∀ q, pos ≤ q → q < st → runHead p s q = none) ∧
      runHead p s st = some (en, b) ∧ LeftmostChain p s (advanceFrom st en) rest

theorem capturesIterAux_chain (p : Pattern) (s : ByteStr) :
    ∀ (fuel pos : Nat), s.length + 1 ≤ fuel + pos →
      LeftmostChain p s pos (capturesIterAux p s fuel pos) := by
  intro fuel
  induction fuel with
  | zero =>
    intro pos hp
    simp only [capturesIterAux, LeftmostChain]
    intro q h1 h2
    omega
  | succ n ih =>
    intro pos hp
    simp only [capturesIterAux]
    cases hf : findFrom p s pos with
    | none =>
      simp only [LeftmostChain]
      intro q h1 h2
      exact findFromAux_none p s _ pos hf q h1 (by omega)
    | some r =>
      obtain ⟨st, en, b⟩ := r
      obtain ⟨h1, h2, h3⟩ := findFromAux_some p s _ pos st en b hf
      have hle : st ≤ en := runHead_le h2
      simp only [LeftmostChain]
      refine ⟨h1, hle, h3, h2, ?_⟩
      apply ih
      unfold advanceFrom
      split <;> omega

/-- The span list underlying `captures_iter` is the complete leftmost-first,
non-overlapping enumeration of the pattern's matches. -/
theorem capturesSpans_chain (p : Pattern) (s : ByteStr) :
    LeftmostChain p s 0 (capturesSpans p s) :=
  capturesIterAux_chain p s (s.length + 1) 0 (by omega)

/-! ## Decoding-loop lemmas -/

theorem dg_participating (s : ByteStr) :
    ∀ (l : List (Nat × Option (Nat × Nat))) (m : List (Nat × ByteStr)) (g : Nat) (sp : Nat × Nat),
      decodeGroupsGo s l = some m → (g, some sp) ∈ l →
      ∃ t, from_utf8 (slice s sp) = some t ∧ (g, t) ∈ m := by
  intro l
  induction l with
  | nil => intro m g sp h hm; simp at hm
  | cons x rest ih =>
    intro m g sp h hm
    obtain ⟨g', o⟩ := x
    cases o with
    | none =>
      simp only [decodeGroupsGo] at h
      rcases List.mem_cons.mp hm with he | hm'
      · exact absurd he (by simp)
      · exact ih m g sp h hm'
    | some sp' =>
      simp only [decodeGroupsGo] at h
      cases hd : from_utf8 (slice s sp') with
      | none => rw [hd] at h; simp at h
      | some t' =>
        rw [hd] at h
        cases hrest : decodeGroupsGo s rest with
        | none => rw [hrest] at h; simp at h
        | some m' =>
          rw [hrest] at h
          simp only [Option.map_some', Option.some.injEq] at h
          subst h
          rcases List.mem_cons.mp hm with he | hm'
          · rw [Prod.mk.injEq, Option.some.injEq] at he
            obtain ⟨h1, h2⟩ := he
            subst h1
            subst h2
            exact ⟨t', hd, List.mem_cons_self _ _⟩
          · obtain ⟨t, ht, htm⟩ := ih m' g sp hrest hm'
            exact ⟨t, ht, List.mem_cons_of_mem _ htm⟩

theorem dg_retained (s : ByteStr) :
    ∀ (l : List (Nat × Option (Nat × Nat))) (m : List (Nat × ByteStr)) (g : Nat) (t : ByteStr),
      decodeGroupsGo s l = some m → (g, t) ∈ m →
      ∃ sp, (g, some sp) ∈ l ∧ from_utf8 (slice s sp) = some t := by
  intro l
  induction l with
  | nil =>
    intro m g t h hm
    simp only [decodeGroupsGo, Option.some.injEq] at h
    subst h
    simp at hm
  | cons x rest ih =>
    intro m g t h hm
    obtain ⟨g', o⟩ := x
    cases o with
    | none =>
      simp only [decodeGroupsGo] at h
      obtain ⟨sp, hl, ht⟩ := ih m g t h hm
      exact ⟨sp, List.mem_cons_of_mem _ hl, ht⟩
    | some sp' =>
      simp only [decodeGroupsGo] at h
      cases hd : from_utf8 (slice s sp') with
      | none => rw [hd] at h; simp at h
      | some t' =>
        rw [hd] at h
        cases hrest : decodeGroupsGo s rest with
        | none => rw [hrest] at h; simp at h
        | some m' =>
          rw [hrest] at h
          simp only [Option.map_some', Option.some.injEq] at h
          subst h
          rcases List.mem_cons.mp hm with he | hm'
          · rw [Prod.mk.injEq] at he
            obtain ⟨h1, h2⟩ := he
            subst h1
            subst h2
            exact ⟨sp', List.mem_cons_self _ _, hd⟩
          · obtain ⟨sp, hl, ht⟩ := ih m' g t hrest hm'
            exact ⟨sp, List.mem_cons_of_mem _ hl, ht⟩

theorem dg_keys (s : ByteStr) :
    ∀ (l : List (Nat × Option (Nat × Nat))) (m : List (Nat × ByteStr)),
      decodeGroupsGo s l = some m →
      m.map Prod.fst = (l.filter (fun x => x.2.isSome)).map Prod.fst := by
  intro l
  induction l with
  | nil =>
    intro m h
    simp only [decodeGroupsGo, Option.some.injEq] at h
    subst h
    simp
  | cons x rest ih =>
    intro m h
    obtain ⟨g', o⟩ := x
    cases o with
    | none =>
      simp only [decodeGroupsGo] at h
      simpa [List.filter] using ih m h
    | some sp' =>
      simp only [decodeGroupsGo] at h
      cases hd : from_utf8 (slice s sp') with
      | none => rw [hd] at h; simp at h
      | some t' =>
        rw [hd] at h
        cases hrest : decodeGroupsGo s rest with
        | none => rw [hrest] at h; simp at h
        | some m' =>
          rw [hrest] at h
          simp only [Option.map_some', Option.some.injEq] at h
          subst h
          simpa [List.filter] using ih m' hrest

theorem bf_keys (s : ByteStr) :
    ∀ (l : List (Nat × List (Option (Nat × Nat)))) (f : List (Nat × List (Nat × ByteStr))),
      buildFoundGo s l = some f → f.map Prod.fst = l.map Prod.fst := by
  intro l
  induction l with
  | nil =>
    intro f h
    simp only [buildFoundGo, Option.some.injEq] at h
    subst h
    simp
  | cons x rest ih =>
    intro f h
    obtain ⟨i, caps⟩ := x
    simp only [buildFoundGo] at h
    cases hd : decodeGroupsGo s (enumFrom 0 caps) with
    | none => rw [hd] at h; simp at h
    | some m =>
      rw [hd] at h
      cases hrest : buildFoundGo s rest with
      | none => rw [hrest] at h; simp at h
      | some f' =>
        rw [hrest] at h
        simp only [Option.map_some', Option.some.injEq] at h
        subst h
        simpa using ih f' hrest

theorem bf_mem (s : ByteStr) :
    ∀ (l : List (Nat × List (Option (Nat × Nat)))) (f : List (Nat × List (Nat × ByteStr)))
      (i : Nat) (m : List (Nat × ByteStr)),
      buildFoundGo s l = some f →
      ((i, m) ∈ f ↔ ∃ caps, (i, caps) ∈ l ∧ decodeGroupsGo s (enumFrom 0 caps) = some m) := by
  intro l
  induction l with
  | nil =>
    intro f i m h
    simp only [buildFoundGo, Option.some.injEq] at h
    subst h
    simp
  | cons x rest ih =>
    intro f i m h
    obtain ⟨i', caps'⟩ := x
    simp only [buildFoundGo] at h
    cases hd : decodeGroupsGo s (enumFrom 0 caps') with
    | none => rw [hd] at h; simp at h
    | some m' =>
      rw [hd] at h
      cases hrest : buildFoundGo s rest with
      | none => rw [hrest] at h; simp at h
      | some f' =>
        rw [hrest] at h
        simp only [Option.map_some', Option.some.injEq] at h
        subst h
        constructor
        · intro hm
          rcases List.mem_cons.mp hm with he | hm'
          · rw [Prod.mk.injEq] at he
            obtain ⟨h1, h2⟩ := he
            subst h1
            subst h2
            exact ⟨caps', List.mem_cons_self _ _, hd⟩
          · obtain ⟨caps, hcl, hdg⟩ := (ih f' i m hrest).mp hm'
            exact ⟨caps, List.mem_cons_of_mem _ hcl, hdg⟩
        · rintro ⟨caps, hcl, hdg⟩
          rcases List.mem_cons.mp hcl with he | hcl'
          · rw [Prod.mk.injEq] at he
            obtain ⟨h1, h2⟩ := he
            subst h1
            subst h2
            rw [hd] at hdg
            simp only [Option.some.injEq] at hdg
            subst hdg
            exact List.mem_cons_self _ _
          · exact List.mem_cons_of_mem _ ((ih f' i m hrest).mpr ⟨caps, hcl', hdg⟩)

theorem capsList_nth_zero (maxG st en : Nat) (b : Binds) :
    nth (capsList maxG st en b) 0 = some (some (st, en)) := by
  unfold capsList
  rw [nth_map]
  have h0 : nth (List.range (maxG + 1)) 0 = some 0 := by
    rw [List.range_succ_eq_map]
    rfl
  rw [h0]
  rfl

/-- Every occurrence map `is_match` builds contains group `0`, decoded from
the occurrence's whole-match span. -/
theorem buildFound_mem_zero (pat : Pattern) (s : ByteStr)
    (found : List (Nat × List (Nat × ByteStr)))
    (h : buildFound pat s = some found) :
    ∀ i m, (i, m) ∈ found →
      ∃ st en bnd t, nth (capturesSpans pat s) i = some (st, en, bnd) ∧
        from_utf8 (slice s (st, en)) = some t ∧ (0, t) ∈ m := by
  intro i m hm
  obtain ⟨caps, hcl, hdg⟩ := (bf_mem s _ found i m h).mp hm
  obtain ⟨j, hj, hnth⟩ := (enumFrom_mem _ 0 i caps).mp hcl
  have hj0 : i = j := by omega
  subst hj0
  rw [capturesIter, nth_map] at hnth
  cases hsp : nth (capturesSpans pat s) i with
  | none => rw [hsp] at hnth; simp at hnth
  | some r =>
    rw [hsp] at hnth
    simp only [Option.map_some', Option.some.injEq] at hnth
    obtain ⟨st, en, bnd⟩ := r
    have h0 : nth caps 0 = some (some (st, en)) := by
      rw [← hnth]
      exact capsList_nth_zero ..
    have hin : (0, some (st, en)) ∈ enumFrom 0 caps :=
      (enumFrom_mem caps 0 0 (some (st, en))).mpr ⟨0, rfl, h0⟩
    obtain ⟨t, ht, htm⟩ := dg_participating s _ m 0 (st, en) hdg hin
    exact ⟨st, en, bnd, t, rfl, ht, htm⟩

/-! ## Comparison lemmas -/

theorem natCmp_eq_iff (a b : Nat) : natCmp a b = .eq ↔ a = b := by
  unfold natCmp
  split_ifs with h1 h2 <;> simp <;> omega

theorem listCmpWith_eq_iff {α : Type} (f : α → α → Ordering)
    (hf : ∀ a b, f a b = .eq ↔ a = b) :
    ∀ (l1 l2 : List α), listCmpWith f l1 l2 = .eq ↔ l1 = l2 := by
  intro l1
  induction l1 with
  | nil => intro l2; cases l2 <;> simp [listCmpWith]
  | cons a l ih =>
    intro l2
    cases l2 with
    | nil => simp [listCmpWith]
    | cons b l2 =>
      simp only [listCmpWith]
      cases hab : f a b with
      | eq =>
        have hab' : a = b := (hf a b).mp hab
        subst hab'
        constructor
        · intro h
          rw [(ih l2).mp h]
        · intro h
          injection h with h1 h2
          exact (ih l2).mpr h2
      | lt =>
        constructor
        · intro h; exact Ordering.noConfusion h
        · intro h
          injection h with h1 h2
          rw [(hf a b).mpr h1] at hab
          exact Ordering.noConfusion hab
      | gt =>
        constructor
        · intro h; exact Ordering.noConfusion h
        · intro h
          injection h with h1 h2
          rw [(hf a b).mpr h1] at hab
          exact Ordering.noConfusion hab

theorem byteStrCmp_eq_iff (l1 l2 : ByteStr) : byteStrCmp l1 l2 = .eq ↔ l1 = l2 :=
  listCmpWith_eq_iff natCmp natCmp_eq_iff l1 l2

theorem pathCmp_eq_iff (p q : FsPath) : pathCmp p q = .eq ↔ p = q := by
  obtain ⟨pa, pc⟩ := p
  obtain ⟨qa, qc⟩ := q
  cases pa <;> cases qa <;>
    simp [pathCmp, listCmpWith_eq_iff byteStrCmp byteStrCmp_eq_iff, FsPath.mk.injEq]

theorem enumFrom_length {α : Type} :
    ∀ (l : List α) (k : Nat), (enumFrom k l).length = l.length := by
  intro l
  induction l with
  | nil => intro k; rfl
  | cons a l ih => intro k; simp [enumFrom, ih]

/-- Anatomy of a successful `is_match` call: the search string was derived,
every capture decoded, the entry's match data was overwritten with the freshly
built map, and the report is exactly the non-emptiness of that map. -/
theorem is_match_ok {d : DirEntry} {cwd : FsPath} {pat : Pattern} {full : Bool}
    {d' : DirEntry} {r : Bool}
    (h : d.is_match cwd pat full = .ok (d', r)) :
    ∃ s found, d.get_search_str cwd full = .ok s ∧
      buildFound pat (osstr_to_bytes s) = some found ∧
      d' = { d with match_list := found } ∧ r = decide (0 < found.length) := by
  unfold DirEntry.is_match at h
  cases hs : d.get_search_str cwd full with
  | panic k => rw [hs] at h; simp at h
  | ok s =>
    rw [hs] at h
    simp only at h
    cases hb : buildFound pat (osstr_to_bytes s) with
    | none => rw [hb] at h; simp at h
    | some found =>
      rw [hb] at h
      simp only [MatchOut.ok.injEq, Prod.mk.injEq] at h
      exact ⟨s, found, rfl, hb, h.1.symm, h.2.symm⟩

/-- A successfully built match map is non-empty exactly when some occurrence
retained a fragment (every occurrence retains at least its group 0). -/
theorem buildFound_pos_iff (pat : Pattern) (s : ByteStr)
    (found : List (Nat × List (Nat × ByteStr)))
    (hb : buildFound pat s = some found) :
    0 < found.length ↔ ∃ pr ∈ found, pr.2 ≠ [] := by
  constructor
  · intro hlen
    cases found with
    | nil => simp at hlen
    | cons pr rest =>
      refine ⟨pr, List.mem_cons_self _ _, ?_⟩
      obtain ⟨st, en, bnd, t, hsp, ht, htm⟩ :=
        buildFound_mem_zero pat s _ hb pr.1 pr.2 (List.mem_cons_self _ _)
      intro hemp
      rw [hemp] at htm
      simp at htm
  · rintro ⟨pr, hpr, _⟩
    cases found with
    | nil => simp at hpr
    | cons a rest => simp

/-! ## Concrete inputs used by the claim theorems and witnesses -/

/-- A working directory, `/w`. -/
def cwd0 : FsPath := { absolute := true, comps := [[119]] }

/-- The absolute path `/a12 b34` (filename bytes of `a12 b34`). -/
def exPath : FsPath := { absolute := true, comps := [[97, 49, 50, 32, 98, 51, 52]] }

def exEntry : DirEntry := DirEntry.broken_symlink exPath

/-- The pattern `\d+` (ASCII digits, as in the spec's example). -/
def dPlus : Pattern := .cat .digit (.star .digit)

/-- The match data `\d+` stores for `a12 b34`: occurrences `12` and `34`. -/
def exFound : List (Nat × List (Nat × ByteStr)) := [(0, [(0, [49, 50])]), (1, [(0, [51, 52])])]

def exEntryAfter : DirEntry := { inner := exEntry.inner, metadata := none, match_list := exFound }

/-- The absolute path `/ac`. -/
def acPath : FsPath := { absolute := true, comps := [[97, 99]] }

def acEntry : DirEntry := DirEntry.broken_symlink acPath

/-- The pattern `a(b)?c`. -/
def abcPat : Pattern := .cat (.byte 97) (.cat (.alt (.group 1 (.byte 98)) .emp) (.byte 99))

def acAfter : DirEntry := { inner := acEntry.inner, metadata := none, match_list := [(0, [(0, [97, 99])])] }

/-- An absolute path whose single component is the non-UTF-8 byte `0xFF`. -/
def ffPath : FsPath := { absolute := true, comps := [[255]] }

/-- A bare root path: it has no final path component. -/
def rootEntry : DirEntry := DirEntry.broken_symlink { absolute := true, comps := [] }

/-- A filesystem on which every metadata lookup fails. -/
def fs0 : Filesystem := { symlink_metadata := fun _ => .err .notFound }

/-- The dangling-symlink path `/x`. -/
def dangPath : FsPath := { absolute := true, comps := [[120]] }

def dang0 : DirEntry := DirEntry.broken_symlink dangPath

/-! ## Claim theorems -/

/-- Claim C1: a successful `is_match` call stores exactly the captures built
from this call's pattern and search string as the entry's match data (all other
fields unchanged, any prior match data gone), and returns `true` iff at least
one match occurrence produced at least one retained capture fragment. -/
theorem c1_is_match_stores_and_reports (cwd : FsPath) (pat : Pattern) (full : Bool)
    (d d' : DirEntry) (r : Bool)
    (h : d.is_match cwd pat full = .ok (d', r)) :
    d'.inner = d.inner ∧ d'.metadata = d.metadata ∧
    (∃ s, d.get_search_str cwd full = .ok s ∧
      buildFound pat (osstr_to_bytes s) = some d'.match_list) ∧
    (r = true ↔ ∃ pr ∈ d'.match_list, pr.2 ≠ []) := by
  obtain ⟨s, found, hs, hb, rfl, rfl⟩ := is_match_ok h
  refine ⟨rfl, rfl, ⟨s, hs, hb⟩, ?_⟩
  simp only [decide_eq_true_eq]
  exact buildFound_pos_iff pat (osstr_to_bytes s) found hb

/-- Witness for C1: the spec's `\d+` on filename `a12 b34` matches, and the
stored data is non-empty. -/
theorem c1_witness :
    exEntryAfter.inner = exEntry.inner ∧ exEntryAfter.metadata = exEntry.metadata ∧
    (∃ s, exEntry.get_search_str cwd0 false = .ok s ∧
      buildFound dPlus (osstr_to_bytes s) = some exEntryAfter.match_list) ∧
    (true = true ↔ ∃ pr ∈ exEntryAfter.match_list, pr.2 ≠ []) :=
  c1_is_match_stores_and_reports cwd0 dPlus false exEntry exEntryAfter true (by decide)

/-- Claim C2 (code bug): on a match-evaluation call where a captured byte span
is not valid text, the code neither signals a recoverable decoding error nor
substitutes lossily: `String::from_utf8(cap.to_vec()).unwrap()` panics.
Evaluated at the failing input: the filename made of the single byte `0xFF`
(legal on Unix filesystems) matched by a pattern for that raw byte; the whole
call aborts with the decode panic. -/
theorem c2_decode_panic :
    (DirEntry.broken_symlink ffPath).is_match cwd0 (.byte 255) false = .panic .decodeFailure ∧
    validUtf8 [255] = false := by
  exact ⟨by decide, by decide⟩

/-- Claim C3: the metadata lookup runs at most once per entry; a first call on
an unevaluated cache performs exactly one lookup and caches its (possibly
absent) outcome without touching other fields, a call on an evaluated cache is
a pure read, a repeated call returns the identical cached result with no
further lookup, and (for a dangling symlink) `file_type` likewise reads the
filled cache without another lookup.  No error is ever surfaced: results live
in `Option`, lookup failure having been absorbed by `.ok()`. -/
theorem c3_metadata_cached_once (fs : Filesystem) (d : DirEntry) :
    (d.metadata_call fs).lookups ≤ 1 ∧
    (d.metadata = none →
      (d.metadata_call fs).lookups = 1 ∧
      (d.metadata_call fs).result = metadataLookup fs d ∧
      (d.metadata_call fs).entry.metadata = some (metadataLookup fs d) ∧
      (d.metadata_call fs).entry.inner = d.inner ∧
      (d.metadata_call fs).entry.match_list = d.match_list) ∧
    (∀ c, d.metadata = some c →
      d.metadata_call fs = { result := c, entry := d, lookups := 0 }) ∧
    ((d.metadata_call fs).entry.metadata_call fs =
      { result := (d.metadata_call fs).result,
        entry := (d.metadata_call fs).entry, lookups := 0 }) ∧
    (∀ p, d.inner = .BrokenSymlink p →
      (d.metadata_call fs).entry.file_type_call fs =
        { result := (d.metadata_call fs).result.map MetadataM.file_type,
          entry := (d.metadata_call fs).entry, lookups := 0 }) := by
  cases hm : d.metadata with
  | none =>
    refine ⟨?_, fun _ => ?_, ?_, ?_, ?_⟩
    · simp [DirEntry.metadata_call, hm]
    · simp [DirEntry.metadata_call, hm]
    · intro c hc
      exact Option.noConfusion hc
    · simp [DirEntry.metadata_call, hm]
    · intro p hp
      simp [DirEntry.file_type_call, DirEntry.metadata_call, hm, hp]
  | some c0 =>
    refine ⟨?_, ?_, ?_, ?_, ?_⟩
    · simp [DirEntry.metadata_call, hm]
    · intro hc
      exact Option.noConfusion hc
    · intro c hc
      simp only [Option.some.injEq] at hc
      subst hc
      simp [DirEntry.metadata_call, hm]
    · simp [DirEntry.metadata_call, hm]
    · intro p hp
      simp [DirEntry.file_type_call, DirEntry.metadata_call, hm, hp]

/-- Witness for C3: on a failing filesystem, the first metadata call on a
fresh dangling-symlink entry performs its one lookup and caches the absent
outcome. -/
theorem c3_witness :
    (dang0.metadata_call fs0).lookups = 1 ∧
    (dang0.metadata_call fs0).result = metadataLookup fs0 dang0 ∧
    (dang0.metadata_call fs0).entry.metadata = some (metadataLookup fs0 dang0) ∧
    (dang0.metadata_call fs0).entry.inner = dang0.inner ∧
    (dang0.metadata_call fs0).entry.match_list = dang0.match_list :=
  (c3_metadata_cached_once fs0 dang0).2.1 rfl

/-- Claim C4: both constructors start with empty match data; the outcome of
`is_match` is independent of whatever match data was stored before the call;
and a call whose pattern matches nowhere stores the empty map (discarding any
earlier data) and returns `false`. -/
theorem c4_match_data_overwritten :
    (∀ e, (DirEntry.normal e).match_list = []) ∧
    (∀ p, (DirEntry.broken_symlink p).match_list = []) ∧
    (∀ (cwd : FsPath) (pat : Pattern) (full : Bool) inner cache ml1 ml2,
      DirEntry.is_match { inner := inner, metadata := cache, match_list := ml1 } cwd pat full =
        DirEntry.is_match { inner := inner, metadata := cache, match_list := ml2 } cwd pat full) ∧
    (∀ (cwd : FsPath) (pat : Pattern) (full : Bool) (d : DirEntry) (s : ByteStr),
      d.get_search_str cwd full = .ok s →
      capturesSpans pat (osstr_to_bytes s) = [] →
      d.is_match cwd pat full = .ok ({ d with match_list := [] }, false)) := by
  refine ⟨fun e => rfl, fun p => rfl, ?_, ?_⟩
  · intro cwd pat full inner cache ml1 ml2
    rfl
  · intro cwd pat full d s hs hcap
    have hb : buildFound pat (osstr_to_bytes s) = some [] := by
      unfold buildFound
      unfold capturesIter
      rw [hcap]
      rfl
    unfold DirEntry.is_match
    rw [hs]
    simp only
    rw [hb]
    rfl

/-- Witness for C4: `\d+` matches nowhere in filename `ac`, so the call stores
the empty map and returns `false`. -/
theorem c4_witness :
    acEntry.is_match cwd0 dPlus false = .ok ({ acEntry with match_list := [] }, false) :=
  c4_match_data_overwritten.2.2.2 cwd0 dPlus false acEntry [97, 99] (by decide) (by decide)

/-- Claim C5: entry equality holds iff the paths are equal, and the entry
comparison is exactly the lexicographic path comparison (`pathCmp`: absolute
root first, then component-wise lexicographic byte comparison), whatever the
provenance variants, metadata cache states and stored match data of the two
entries are; moreover the comparison is lawful: it yields `eq` iff the paths
are equal. -/
theorem c5_eq_ord_by_path (a b : DirEntry) :
    (DirEntry.beq a b = true ↔ a.path = b.path) ∧
    DirEntry.cmp a b = pathCmp a.path b.path ∧
    (DirEntry.cmp a b = .eq ↔ a.path = b.path) := by
  refine ⟨?_, rfl, ?_⟩
  · simp [DirEntry.beq]
  · exact pathCmp_eq_iff a.path b.path

/-- Claim C6: the enumeration underlying `captures_iter` is the complete
leftmost-first, non-overlapping match enumeration: every listed occurrence is
a genuine match beginning after the previous match's last byte (its start is
at or beyond the resume position, which lies past the previous span's
exclusive end), earlier positions hold no match, spans are well-formed, and no
match is missed after the last occurrence.  On the spec's example, `\d+`
against `a12 b34` yields exactly the two occurrences `12` (span 1-3) then `34`
(span 5-7), and `is_match` stores them in that order. -/
theorem c6_leftmost_nonoverlapping :
    (∀ (p : Pattern) (s : ByteStr), LeftmostChain p s 0 (capturesSpans p s)) ∧
    capturesSpans dPlus [97, 49, 50, 32, 98, 51, 52] = [(1, 3, []), (5, 7, [])] ∧
    exEntry.is_match cwd0 dPlus false = .ok (exEntryAfter, true) :=
  ⟨capturesSpans_chain, by decide, by decide⟩

/-- Claim C7: in every occurrence map stored by a successful `is_match` call,
the group keys appear in strictly ascending order; a group key is present with
a decoded text exactly when that group participated in the occurrence (its
capture is `some` in the `Captures` of that occurrence); and a group that did
not participate is wholly absent from the map (in particular it is not stored
as an empty string). -/
theorem c7_groups_ascending_participating (cwd : FsPath) (pat : Pattern) (full : Bool)
    (d d' : DirEntry) (r : Bool)
    (h : d.is_match cwd pat full = .ok (d', r)) :
    ∀ i m, (i, m) ∈ d'.match_list →
      List.Pairwise (· < ·) (m.map Prod.fst) ∧
      ∃ s caps, d.get_search_str cwd full = .ok s ∧
        nth (capturesIter pat (osstr_to_bytes s)) i = some caps ∧
        (∀ g t, (g, t) ∈ m →
          ∃ sp, nth caps g = some (some sp) ∧
            from_utf8 (slice (osstr_to_bytes s) sp) = some t) ∧
        (∀ g sp, nth caps g = some (some sp) →
          ∃ t, from_utf8 (slice (osstr_to_bytes s) sp) = some t ∧ (g, t) ∈ m) ∧
        (∀ g, nth caps g = some none → ∀ t, (g, t) ∉ m) := by
  obtain ⟨s, found, hs, hb, rfl, rfl⟩ := is_match_ok h
  intro i m hm
  unfold buildFound at hb
  obtain ⟨caps, hcl, hdg⟩ := (bf_mem (osstr_to_bytes s) _ found i m hb).mp hm
  obtain ⟨j, hj, hnth⟩ := (enumFrom_mem _ 0 i caps).mp hcl
  have hj0 : i = j := by omega
  subst hj0
  constructor
  · -- ascending keys: the key list is a sublist of the ascending enumeration
    rw [dg_keys (osstr_to_bytes s) _ m hdg]
    exact (enumFrom_pairwise_fst caps 0).sublist
      ((List.filter_sublist _).map Prod.fst)
  · refine ⟨s, caps, hs, hnth, ?_, ?_, ?_⟩
    · intro g t hgt
      obtain ⟨sp, hl, ht⟩ := dg_retained (osstr_to_bytes s) _ m g t hdg hgt
      obtain ⟨j2, hg2, hn2⟩ := (enumFrom_mem _ 0 g (some sp)).mp hl
      have : g = j2 := by omega
      subst this
      exact ⟨sp, hn2, ht⟩
    · intro g sp hg
      have hin : (g, some sp) ∈ enumFrom 0 caps :=
        (enumFrom_mem caps 0 g (some sp)).mpr ⟨g, by omega, hg⟩
      obtain ⟨t, ht, htm⟩ := dg_participating (osstr_to_bytes s) _ m g sp hdg hin
      exact ⟨t, ht, htm⟩
    · intro g hg t hgt
      obtain ⟨sp, hl, _⟩ := dg_retained (osstr_to_bytes s) _ m g t hdg hgt
      obtain ⟨j2, hg2, hn2⟩ := (enumFrom_mem _ 0 g (some sp)).mp hl
      have : g = j2 := by omega
      subst this
      rw [hg] at hn2
      simp at hn2

/-- Witness for C7: `a(b)?c` on filename `ac`: the single occurrence's map
holds group 0 only; group 1 did not participate (`nth caps 1 = some none`)
and is absent from the map. -/
theorem c7_witness :
    List.Pairwise (· < ·) (([(0, [97, 99])] : List (Nat × ByteStr)).map Prod.fst) ∧
    ∃ s caps, acEntry.get_search_str cwd0 false = .ok s ∧
      nth (capturesIter abcPat (osstr_to_bytes s)) 0 = some caps ∧
      (∀ g t, (g, t) ∈ ([(0, [97, 99])] : List (Nat × ByteStr)) →
        ∃ sp, nth caps g = some (some sp) ∧
          from_utf8 (slice (osstr_to_bytes s) sp) = some t) ∧
      (∀ g sp, nth caps g = some (some sp) →
        ∃ t, from_utf8 (slice (osstr_to_bytes s) sp) = some t ∧
          (g, t) ∈ ([(0, [97, 99])] : List (Nat × ByteStr))) ∧
      (∀ g, nth caps g = some none →
        ∀ t, (g, t) ∉ ([(0, [97, 99])] : List (Nat × ByteStr))) :=
  c7_groups_ascending_participating cwd0 abcPat false acEntry acAfter true (by decide)
    0 [(0, [97, 99])] (by decide)

/-- Claim C8: `file_type` returns the walker-supplied type for a walked entry
(no lookup, cache untouched); for a dangling symlink it goes through the
metadata cache, on first use performing the non-following `symlink_metadata`
lookup on the link's own path and caching its outcome, afterwards reading the
cache; in every case an undeterminable type is reported as `none`. -/
theorem c8_file_type (fs : Filesystem) :
    (∀ e cache ml,
      DirEntry.file_type_call { inner := .Normal e, metadata := cache, match_list := ml } fs =
        { result := e.file_type,
          entry := { inner := .Normal e, metadata := cache, match_list := ml },
          lookups := 0 }) ∧
    (∀ p ml,
      DirEntry.file_type_call { inner := .BrokenSymlink p, metadata := none, match_list := ml } fs =
        { result := (fs.symlink_metadata p).toOption.map MetadataM.file_type,
          entry := { inner := .BrokenSymlink p,
                     metadata := some ((fs.symlink_metadata p).toOption),
                     match_list := ml },
          lookups := 1 }) ∧
    (∀ p c ml,
      DirEntry.file_type_call { inner := .BrokenSymlink p, metadata := some c, match_list := ml } fs =
        { result := c.map MetadataM.file_type,
          entry := { inner := .BrokenSymlink p, metadata := some c, match_list := ml },
          lookups := 0 }) :=
  ⟨fun e cache ml => rfl, fun p ml => rfl, fun p c ml => rfl⟩

/-- Claim C9: in filename mode, an entry whose path has no final path
component makes search-string derivation hit the `unreachable!` branch: a
panic (fatal, loud), not a recoverable error value or a silently tolerated
case, and `is_match` aborts with that panic.  Under the Walker's contract
(a final component always exists), and since absolutization always succeeds
for the paths this core holds, the derivation always produces a search
string: the absolute path bytes in full-path mode, the filename otherwise. -/
theorem c9_search_str_contract (cwd : FsPath) (d : DirEntry) :
    (d.path.file_name = none →
      d.get_search_str cwd false = .panic .noFileName ∧
      ∀ pat, d.is_match cwd pat false = .panic .noFileName) ∧
    (∀ fn, d.path.file_name = some fn → d.get_search_str cwd false = .ok fn) ∧
    (∃ ap, path_absolute_form cwd d.path = some ap ∧
      d.get_search_str cwd true = .ok (pathBytes ap)) := by
  refine ⟨?_, ?_, ?_⟩
  · intro hfn
    constructor
    · simp [DirEntry.get_search_str, hfn]
    · intro pat
      unfold DirEntry.is_match
      simp [DirEntry.get_search_str, hfn]
  · intro fn hfn
    simp [DirEntry.get_search_str, hfn]
  · exact ⟨_, rfl, rfl⟩

/-- Witness for C9: a bare root path has no final component; in filename mode
the call panics with the contract-violation panic. -/
theorem c9_witness :
    rootEntry.get_search_str cwd0 false = .panic .noFileName ∧
    ∀ pat, rootEntry.is_match cwd0 pat false = .panic .noFileName :=
  (c9_search_str_contract cwd0 rootEntry).1 rfl

/-- Claim C10: after a successful `is_match` call the stored occurrence keys
are exactly `0..n-1` in match order, and every occurrence's map holds key `0`
with the decoded whole-match text of that occurrence (policy A: the whole
match is retained as group 0 alongside subgroup captures). -/
theorem c10_keys_range_group_zero (cwd : FsPath) (pat : Pattern) (full : Bool)
    (d d' : DirEntry) (r : Bool)
    (h : d.is_match cwd pat full = .ok (d', r)) :
    d'.match_list.map Prod.fst = List.range d'.match_list.length ∧
    ∀ i m, (i, m) ∈ d'.match_list →
      ∃ s st en bnd t, d.get_search_str cwd full = .ok s ∧
        nth (capturesSpans pat (osstr_to_bytes s)) i = some (st, en, bnd) ∧
        from_utf8 (slice (osstr_to_bytes s) (st, en)) = some t ∧ (0, t) ∈ m := by
  obtain ⟨s, found, hs, hb, rfl, rfl⟩ := is_match_ok h
  constructor
  · show found.map Prod.fst = List.range found.length
    have hb' := hb
    unfold buildFound at hb'
    have h1 := bf_keys (osstr_to_bytes s) _ found hb'
    have hlen : found.length = (capturesIter pat (osstr_to_bytes s)).length := by
      have h2 := congrArg List.length h1
      simpa [enumFrom_length] using h2
    rw [h1, enumFrom_zero_map_fst, hlen]
  · intro i m hm
    obtain ⟨st, en, bnd, t, hsp, ht, htm⟩ :=
      buildFound_mem_zero pat (osstr_to_bytes s) found hb i m hm
    exact ⟨s, st, en, bnd, t, hs, hsp, ht, htm⟩

/-- Witness for C10: for `\d+` on `a12 b34`, occurrence 0's map holds key 0
with the whole-match text `12`. -/
theorem c10_witness :
    ∃ s st en bnd t, exEntry.get_search_str cwd0 false = .ok s ∧
      nth (capturesSpans dPlus (osstr_to_bytes s)) 0 = some (st, en, bnd) ∧
      from_utf8 (slice (osstr_to_bytes s) (st, en)) = some t ∧
      (0, t) ∈ [((0 : Nat), ([49, 50] : ByteStr))] :=
  (c10_keys_range_group_zero cwd0 dPlus false exEntry exEntryAfter true (by decide)).2
    0 [(0, [49, 50])] (by decide)

end FdSpec
